import Mathlib

/-!
Verification of the Qwen3-ASR ONNX inference pipeline
(src/LocalPackages/QwenASRKit/Sources/QwenASRCLib/qwen_asr_onnx.c).

The development shallowly embeds the pure computational core of the C file:
the half-precision codec, the argmax used for greedy decoding, the decode
loop, the mel-frame padding, the prompt-embedding assembly, the
detokenization pass, and the staged session-lifecycle state machine.
Machine integers are modelled as Nat (with Int where the C uses signed
arithmetic); floats that are only moved, compared or concatenated are
modelled as rationals; fp16/fp32 values are modelled by their bit patterns.
-/

namespace QwenAsr

/- ===================================================================== -/
/- Constants (qwen_asr_onnx.c lines 96-110)                              -/
/- ===================================================================== -/

def MAX_NEW_TOKENS : Nat := 1024

def CHUNK_SIZE : Nat := 100

/-- Prompt prefix token ids (qwen_asr_onnx.c line 101, PROMPT_PREFIX). -/
def PROMPT_PREFIX_IDS : List Nat := [151644, 8948, 198, 151645, 198, 151644, 872, 198, 151669]

/-- Prompt suffix token ids (qwen_asr_onnx.c line 105, PROMPT_SUFFIX). -/
def PROMPT_SUFFIX_IDS : List Nat := [151670, 151645, 198, 151644, 77091, 198]

/-- EOS token ids (qwen_asr_onnx.c line 109, EOS_TOKENS). -/
def EOS_TOKENS : List Nat := [151643, 151645]

/-- Translation of is_eos (qwen_asr_onnx.c lines 150-154): linear scan of
EOS_TOKENS comparing with the token. -/
def is_eos (t : Nat) : Bool := EOS_TOKENS.contains t

/- ===================================================================== -/
/- argmax_f32 (qwen_asr_onnx.c lines 156-163)                            -/
/- ===================================================================== -/

/-- Loop of argmax_f32: index i scans the remaining elements, carrying the
best index and best value seen so far; the comparison is the strict
data[i] > best_val of the C code. -/
def argmaxGo : List ℚ → Nat → Nat → ℚ → Nat
  | [], _, best, _ => best
  | x :: xs, i, best, bestVal =>
    if bestVal < x then argmaxGo xs (i + 1) i x else argmaxGo xs (i + 1) best bestVal

/-- Translation of argmax_f32: best starts at index 0 with value data[0];
the scan starts at index 1.  (The C function is only ever called with
n > 0; on the empty list the model returns 0.) -/
def argmax_f32 : List ℚ → Nat
  | [] => 0
  | x :: xs => argmaxGo xs 1 0 x

/- ===================================================================== -/
/- Decode loop skeleton (qwen_asr_onnx.c lines 939-973)                  -/
/- ===================================================================== -/

/-- One-to-one translation of the decode for-loop: fuel counts the
remaining iterations (the C loop runs step = 0 .. MAX_NEW_TOKENS-2); the
loop breaks when the current token is EOS, otherwise the model oracle
next produces the next token (in the C code: argmax of the logits that
the decode session returned for this step), which is appended. -/
def decodeGo (next : Nat → Nat → Nat) : Nat → Nat → Nat → List Nat
  | _, _, 0 => []
  | token, step, fuel + 1 =>
    if is_eos token then []
    else next step token :: decodeGo next (next step token) (step + 1) fuel

/-- The generated token stream: index 0 is the prefill token, the rest is
produced by the decode loop with at most MAX_NEW_TOKENS - 1 iterations. -/
def genStream (next : Nat → Nat → Nat) (first : Nat) : List Nat :=
  first :: decodeGo next first 0 (MAX_NEW_TOKENS - 1)

/-- The generated stream when each step takes the argmax of an oracle of
logits vectors (the deterministic-model view of the decode loop). -/
def genStreamLogits (lg : Nat → Nat → List ℚ) (first : Nat) : List Nat :=
  genStream (fun step tok => argmax_f32 (lg step tok)) first

/- ===================================================================== -/
/- Mel padding (qwen_asr_onnx.c lines 700-709)                           -/
/- ===================================================================== -/

/-- pad_frames = (CHUNK_SIZE - (n_frames % CHUNK_SIZE)) % CHUNK_SIZE. -/
def padFrames (nFrames : Nat) : Nat := (CHUNK_SIZE - nFrames % CHUNK_SIZE) % CHUNK_SIZE

/-- padded_frames = n_frames + pad_frames. -/
def paddedFrames (nFrames : Nat) : Nat := nFrames + padFrames nFrames

/-- Translation of the padding block: when pad_frames > 0 a zeroed buffer
of MEL_BINS * padded_frames floats is allocated (calloc) and the original
MEL_BINS * n_frames floats are copied to its front; otherwise the buffer
is left untouched.  The mel matrix is modelled as its contiguous float
buffer (the mel extractor itself is outside this file). -/
def padMelBuffer (melBins nFrames : Nat) (mel : List ℚ) : List ℚ :=
  if 0 < padFrames nFrames then
    mel.take (melBins * nFrames) ++
      List.replicate (melBins * paddedFrames nFrames - melBins * nFrames) 0
  else mel

/- ===================================================================== -/
/- Detokenization (qwen_asr_onnx.c lines 988-1052)                       -/
/- ===================================================================== -/

/-- Strip trailing EOS tokens (lines 989-990): the C loop decrements
n_generated while the last kept token is EOS; its denotation drops the
maximal EOS suffix. -/
def stripTrailingEos (g : List Nat) : List Nat :=
  (g.reverse.dropWhile (fun t => is_eos t)).reverse

/-- First scan (lines 999-1019): the running past_asr_text flag starts
false; the sentinel sets it and is itself skipped; tokens before the
sentinel are skipped; afterwards each token decodes to a piece appended to
the text (a NULL piece contributes nothing). -/
def detokScan (dec : Nat → Option (List Char)) (asr : Nat) : List Nat → Bool → List Char
  | [], _ => []
  | t :: ts, past =>
    if t = asr then detokScan dec asr ts true
    else if past then ((dec t).getD []) ++ detokScan dec asr ts past
    else detokScan dec asr ts past

/-- Fallback scan (lines 1022-1040): used when the sentinel never
occurred; skips every token with id >= 151643 and concatenates the decoded
pieces of the rest. -/
def detokAll (dec : Nat → Option (List Char)) : List Nat → List Char
  | [] => []
  | t :: ts =>
    if 151643 ≤ t then detokAll dec ts
    else ((dec t).getD []) ++ detokAll dec ts

/-- Whitespace set of the trim loop (lines 1043-1046): space, newline, tab. -/
def isWsChar (c : Char) : Bool := c == ' ' || c == '\n' || c == '\t'

/-- Trim (lines 1043-1051): advance start past leading whitespace, move
end back over trailing whitespace, copy the middle. -/
def trimWs (s : List Char) : List Char :=
  ((s.dropWhile isWsChar).reverse.dropWhile isWsChar).reverse

/-- Translation of the detokenization stage of qwen_onnx_transcribe
(lines 988-1052).  The tokenizer is the external oracle dec (NULL pieces
are modelled as none); asr is the id of the asr-text sentinel token
(QWEN_TOKEN_ASR_TEXT, defined outside this file).  The fallback pass runs
exactly when the past_asr_text flag is still false after the first scan,
i.e. when no kept token equals the sentinel. -/
def qwen_detokenize (dec : Nat → Option (List Char)) (asr : Nat) (g : List Nat) : List Char :=
  let g2 := stripTrailingEos g
  if g2.any (fun t => t = asr) then trimWs (detokScan dec asr g2 false)
  else trimWs (detokAll dec g2)

/-- Position of the first occurrence of the sentinel (used only by the
specification-side restatement below). -/
def sentinelPos (asr : Nat) : List Nat → Nat
  | [] => 0
  | t :: ts => if t = asr then 0 else sentinelPos asr ts + 1

/-- Modelled from the spec (section 8, property 8, and the claim text):
after stripping trailing EOS tokens, if the sentinel occurs at position k
the output is the concatenation of the decoded pieces of the tokens after
position k, skipping every occurrence of the sentinel itself, trimmed; if
the sentinel does not occur, the output is the concatenation of the
pieces of all tokens with id strictly below 151643, trimmed. -/
def specTranscript (dec : Nat → Option (List Char)) (asr : Nat) (g : List Nat) : List Char :=
  let g2 := stripTrailingEos g
  if g2.any (fun t => t = asr) then
    trimWs ((((g2.drop (sentinelPos asr g2 + 1)).filter (fun t => decide (t ≠ asr))).map
      (fun t => (dec t).getD [])).flatten)
  else
    trimWs (((g2.filter (fun t => decide (t < 151643))).map (fun t => (dec t).getD [])).flatten)

/- ===================================================================== -/
/- Half-precision codec (qwen_asr_onnx.c lines 166-187 and 308-320)      -/
/- ===================================================================== -/

/-- The renormalization while-loop of fp16_to_f32 (lines 174-175):
while the bit 0x400 is clear, shift the mantissa left and decrement the
exponent.  The C exponent is a uint32_t that may wrap below zero during
the loop and wraps back when 112 is added; modelling it as Int gives the
same final value since the sum is always in range.  fuel bounds the
number of iterations (10 suffice for a nonzero 10-bit mantissa). -/
def fp16Norm (mant : Nat) (e : Int) : Nat → Nat × Int
  | 0 => (mant, e)
  | fuel + 1 =>
    if mant &&& 0x400 = 0 then fp16Norm (mant <<< 1) (e - 1) fuel else (mant, e)

/-- Translation of fp16_to_f32 (lines 166-187), bit pattern to bit
pattern.  The uint16_t argument is a value below 2^16; theorems restrict
the domain accordingly. -/
def fp16_to_f32 (h : Nat) : Nat :=
  let sign := (h >>> 15) <<< 31
  let e := (h >>> 10) &&& 0x1F
  let mant := h &&& 0x3FF
  if e = 0 then
    if mant = 0 then sign
    else
      let p := fp16Norm mant 1 11
      sign ||| ((Int.toNat (p.2 + 127 - 15)) <<< 23) ||| ((p.1 &&& 0x3FF) <<< 13)
  else if e = 31 then sign ||| 0x7F800000 ||| (mant <<< 13)
  else sign ||| ((e + 127 - 15) <<< 23) ||| (mant <<< 13)

/-- Translation of the fallback fp32-to-fp16 conversion in load_npy_fp16
(lines 312-319): truncating mantissa, flush-to-zero for non-positive
rebiased exponents, saturate-to-infinity at or above 31.  exp_val is the
int32_t of the C code, so it is modelled as Int. -/
def f32_bits_to_f16 (bits : Nat) : Nat :=
  let sign := (bits >>> 16) &&& 0x8000
  let expVal : Int := ((bits >>> 23) &&& 0xFF : Nat) - 127 + 15
  let mant := (bits >>> 13) &&& 0x3FF
  if expVal ≤ 0 then sign
  else if 31 ≤ expVal then sign ||| 0x7C00
  else sign ||| (expVal.toNat <<< 10) ||| mant

/-- The round trip of claim C4: forward codec then the truncating reverse
codec. -/
def fp16RoundTrip (h : Nat) : Nat := f32_bits_to_f16 (fp16_to_f32 h)

/- IEEE 754 field views and value semantics, used to state the numerical
claims.  Values are scaled by 2^149 so that every finite binary16 and
binary32 value is an integer. -/

/-- Sign field of a binary16 pattern. -/
def f16SignF (h : Nat) : Nat := h / 32768 % 2

/-- Exponent field of a binary16 pattern. -/
def f16ExpF (h : Nat) : Nat := h / 1024 % 32

/-- Mantissa field of a binary16 pattern. -/
def f16ManF (h : Nat) : Nat := h % 1024

/-- Sign field of a binary32 pattern. -/
def f32SignF (b : Nat) : Nat := b / 2147483648 % 2

/-- Exponent field of a binary32 pattern. -/
def f32ExpF (b : Nat) : Nat := b / 8388608 % 256

/-- Mantissa field of a binary32 pattern. -/
def f32ManF (b : Nat) : Nat := b % 8388608

def f16IsNaN (h : Nat) : Prop := f16ExpF h = 31 ∧ f16ManF h ≠ 0

def f16IsInf (h : Nat) : Prop := f16ExpF h = 31 ∧ f16ManF h = 0

def f32IsNaN (b : Nat) : Prop := f32ExpF b = 255 ∧ f32ManF b ≠ 0

def f32IsInf (b : Nat) : Prop := f32ExpF b = 255 ∧ f32ManF b = 0

instance (h : Nat) : Decidable (f16IsNaN h) := by unfold f16IsNaN; infer_instance

instance (h : Nat) : Decidable (f16IsInf h) := by unfold f16IsInf; infer_instance

instance (b : Nat) : Decidable (f32IsNaN b) := by unfold f32IsNaN; infer_instance

instance (b : Nat) : Decidable (f32IsInf b) := by unfold f32IsInf; infer_instance

/-- IEEE 754 value of a finite binary16 pattern, scaled by 2^149 (the
subnormal step of binary16 is 2^-24 = 2^125 / 2^149). -/
def val16 (h : Nat) : Int :=
  (if f16SignF h = 1 then -1 else 1) *
    (if f16ExpF h = 0 then (f16ManF h : Int) * 2 ^ 125
     else ((1024 : Int) + f16ManF h) * 2 ^ (124 + f16ExpF h))

/-- IEEE 754 value of a finite binary32 pattern, scaled by 2^149 (the
subnormal step of binary32 is 2^-149). -/
def val32 (b : Nat) : Int :=
  (if f32SignF b = 1 then -1 else 1) *
    (if f32ExpF b = 0 then (f32ManF b : Int)
     else ((8388608 : Int) + f32ManF b) * 2 ^ (f32ExpF b - 1))

/-- One unit in the last place of the binary16 pattern h, scaled by 2^149:
the value distance between h and the adjacent pattern of the same
exponent. -/
def ulp16 (h : Nat) : Int :=
  if f16ExpF h = 0 then 2 ^ 125 else 2 ^ (124 + f16ExpF h)

/-- The round-trip tolerance asserted by claim C4: either the bits are
reproduced exactly, or both patterns are finite and the values differ by
at most one ulp of the input. -/
def c4RoundTripWithinUlp (h : Nat) : Prop :=
  fp16RoundTrip h = h ∨
    (¬ f16IsNaN h ∧ ¬ f16IsInf h ∧ ¬ f16IsNaN (fp16RoundTrip h) ∧
      ¬ f16IsInf (fp16RoundTrip h) ∧
      (val16 (fp16RoundTrip h) - val16 h).natAbs ≤ (ulp16 h).toNat)

instance (h : Nat) : Decidable (c4RoundTripWithinUlp h) := by
  unfold c4RoundTripWithinUlp; infer_instance

/-- Modelled from the spec (section 4.1 wording of claim C7): binary32 to
binary16 with truncation rounding, flush of non-positive rebiased
exponents to a signed zero, saturation of rebiased exponents of 31 or
more to a signed infinity; stated on the sign, exponent and mantissa
fields of the input. -/
def f32ToF16SpecTrunc (s E M : Nat) : Nat :=
  if (E : Int) - 112 ≤ 0 then s * 32768
  else if 31 ≤ (E : Int) - 112 then s * 32768 + 31744
  else s * 32768 + (E - 112) * 1024 + M / 8192

/- ===================================================================== -/
/- Embedding store and prompt assembly (lines 399-405, 808-824)          -/
/- ===================================================================== -/

/-- Translation of embed_token_fp16 (lines 400-405): the fp16 matrix is
the oracle emb from flat index to 16-bit pattern; row token_id starts at
flat offset token_id * hidden_dim and each element converts through
fp16_to_f32. -/
def embed_token_fp16 (emb : Nat → Nat) (tokenId hidden : Nat) : List Nat :=
  (List.range hidden).map (fun i => fp16_to_f32 (emb (tokenId * hidden + i)))

/-- Translation of the prompt-embedding assembly (lines 808-824): the
flat [prompt_len * hidden] buffer receives the 9 prefix rows, then the
n_audio encoder-output rows (audio is the flat encoder-output buffer,
copied unchanged), then the 6 suffix rows. -/
def buildInputEmbeds (emb : Nat → Nat) (hidden : Nat) (audio : List Nat) : List Nat :=
  (PROMPT_PREFIX_IDS.map (fun t => embed_token_fp16 emb t hidden)).flatten ++ audio ++
    (PROMPT_SUFFIX_IDS.map (fun t => embed_token_fp16 emb t hidden)).flatten

/- ===================================================================== -/
/- Session lifecycle state machine (qwen_onnx_transcribe, lines 665-1101)-/
/- ===================================================================== -/

/-- The three ONNX session slots of the context. -/
structure SessState where
  enc : Bool
  pf : Bool
  dc : Bool
deriving DecidableEq

/-- Outcome oracle for one qwen_onnx_transcribe call: which fallible step
succeeds, and how many decode-session Run calls the loop performs. -/
structure RunOracle where
  genAllocOk : Bool
  melOk : Bool
  encLoadOk : Bool
  encRunOk : Bool
  pfLoadOk : Bool
  probeOk : Bool
  allocOk : Bool
  pfRunOk : Bool
  dcLoadOk : Bool
  dcBufOk : Bool
  nDecodeRuns : Nat

inductive Stage where
  | encoder
  | prefill
  | decode
deriving DecidableEq

/-- The session states the spec expects at each Run call under
keep_sessions = false. -/
def expectedSess : Stage → SessState
  | Stage.encoder => ⟨true, false, false⟩
  | Stage.prefill => ⟨false, true, false⟩
  | Stage.decode => ⟨false, false, true⟩

/-- The cleanup epilogue (lines 1080-1098): with keep_sessions = false
every loaded slot is released; with keep_sessions = true the slots are
left as they are. -/
def releaseAll (keep : Bool) (s : SessState) : SessState :=
  if keep then s else ⟨false, false, false⟩

/-- Result of one transcribe call, as far as the lifecycle claims are
concerned: the session states at each session Run call, the slot states
at return, and whether a transcript (rather than the no-result value) is
returned. -/
structure TrOut where
  events : List (Stage × SessState)
  final : SessState
  ok : Bool
deriving DecidableEq

/-- Session-lifecycle trace of qwen_onnx_transcribe past the input guard
(lines 688-1098), one if per fallible step in source order: the generated
buffer malloc, the mel extraction, the on-demand encoder load (skipped if
the slot is loaded), the encoder Run, the release of the encoder before
the prefill load (line 759, when not keep), the prefill load, the
n_layers probe, the output-array and prompt-buffer allocations, the
prefill Run, the release of prefill before the decode load (line 875),
the decode load, the decode-loop tensor setup, then the decode Run calls.
Every failure path reaches the common cleanup epilogue. -/
def transcribeSessions (keep : Bool) (s0 : SessState) (o : RunOracle) : TrOut :=
  if !o.genAllocOk then ⟨[], releaseAll keep s0, false⟩
  else if !o.melOk then ⟨[], releaseAll keep s0, false⟩
  else if !s0.enc && !o.encLoadOk then ⟨[], releaseAll keep s0, false⟩
  else
    let s1 : SessState := ⟨true, s0.pf, s0.dc⟩
    if !o.encRunOk then ⟨[(Stage.encoder, s1)], releaseAll keep s1, false⟩
    else
      let s2 : SessState := if keep then s1 else ⟨false, s1.pf, s1.dc⟩
      if !s2.pf && !o.pfLoadOk then ⟨[(Stage.encoder, s1)], releaseAll keep s2, false⟩
      else
        let s3 : SessState := ⟨s2.enc, true, s2.dc⟩
        if !o.probeOk then ⟨[(Stage.encoder, s1)], releaseAll keep s3, false⟩
        else if !o.allocOk then ⟨[(Stage.encoder, s1)], releaseAll keep s3, false⟩
        else if !o.pfRunOk then
          ⟨[(Stage.encoder, s1), (Stage.prefill, s3)], releaseAll keep s3, false⟩
        else
          let s4 : SessState := if keep then s3 else ⟨s3.enc, false, s3.dc⟩
          if !s4.dc && !o.dcLoadOk then
            ⟨[(Stage.encoder, s1), (Stage.prefill, s3)], releaseAll keep s4, false⟩
          else
            let s5 : SessState := ⟨s4.enc, s4.pf, true⟩
            if !o.dcBufOk then
              ⟨[(Stage.encoder, s1), (Stage.prefill, s3)], releaseAll keep s5, false⟩
            else
              ⟨[(Stage.encoder, s1), (Stage.prefill, s3)] ++
                 (List.range o.nDecodeRuns).map (fun _ => (Stage.decode, s5)),
               releaseAll keep s5, true⟩

/-- Top of qwen_onnx_transcribe (lines 665-666): the input guard returns
the no-result value immediately, before any allocation, session operation
or context modification; otherwise the staged pipeline runs. -/
def transcribeModel (ctxNull samplesNull : Bool) (nSamples : Int) (keep : Bool)
    (s0 : SessState) (o : RunOracle) : TrOut :=
  if ctxNull || samplesNull || nSamples ≤ 0 then ⟨[], s0, false⟩
  else transcribeSessions keep s0 o

/- ===================================================================== -/
/- Helper lemmas                                                         -/
/- ===================================================================== -/

lemma decodeGo_length_le (next : Nat → Nat → Nat) :
    ∀ fuel token step, (decodeGo next token step fuel).length ≤ fuel := by
  intro fuel
  induction fuel with
  | zero => intro token step; simp [decodeGo]
  | succ f ih =>
    intro token step
    simp only [decodeGo]
    split
    · simp
    · simpa using ih _ _

lemma decodeGo_eos (next : Nat → Nat → Nat) (token step fuel : Nat)
    (h : is_eos token = true) : decodeGo next token step fuel = [] := by
  cases fuel <;> simp [decodeGo, h]

lemma stream_mid_eos (next : Nat → Nat → Nat) :
    ∀ fuel token step i, i + 1 < (token :: decodeGo next token step fuel).length →
      is_eos ((token :: decodeGo next token step fuel).getD i 0) = false := by
  intro fuel
  induction fuel with
  | zero => intro token step i hi; simp [decodeGo] at hi
  | succ f ih =>
    intro token step i hi
    by_cases he : is_eos token
    · rw [decodeGo_eos next token step (f + 1) he] at hi
      simp at hi
    · simp only [decodeGo, he, Bool.false_eq_true, if_false] at hi ⊢
      cases i with
      | zero => simpa using he
      | succ j =>
        have := ih (next step token) (step + 1) j (by simpa using hi)
        simpa using this

/- ===================================================================== -/
/- Theorems                                                              -/
/- ===================================================================== -/

/-- C9: for every context state and outcome oracle, a transcribe call
with a null context, a null samples pointer, or n_samples at most 0
returns the no-result value immediately: no session Run happens, the
session slots are left exactly as they were, and no transcript is
produced. -/
theorem c9_input_guard (ctxNull samplesNull : Bool) (n : Int) (keep : Bool)
    (s0 : SessState) (o : RunOracle)
    (h : ctxNull = true ∨ samplesNull = true ∨ n ≤ 0) :
    transcribeModel ctxNull samplesNull n keep s0 o = ⟨[], s0, false⟩ := by
  unfold transcribeModel
  rcases h with h | h | h
  · simp [h]
  · simp [h]
  · simp [decide_eq_true h]

theorem c9_witness :
    transcribeModel false false 0 false ⟨false, false, false⟩
      ⟨true, true, true, true, true, true, true, true, true, true, 0⟩ =
      ⟨[], ⟨false, false, false⟩, false⟩ :=
  c9_input_guard false false 0 false ⟨false, false, false⟩
    ⟨true, true, true, true, true, true, true, true, true, true, 0⟩
    (Or.inr (Or.inr (by decide)))

set_option maxHeartbeats 4000000 in
/-- C5: with keep_sessions = false and all slots absent at entry, every
session Run of a transcribe call observes exactly the staged slot states
(only the encoder loaded at the encoder Run, only prefill at the prefill
Run, only decode at every decode Run), and on every exit path the call
returns with all three slots absent. -/
theorem c5_staged_lifecycle (o : RunOracle) :
    (transcribeSessions false ⟨false, false, false⟩ o).final = ⟨false, false, false⟩ ∧
    ((transcribeSessions false ⟨false, false, false⟩ o).events.all
      (fun ev => ev.2 = expectedSess ev.1)) = true := by
  obtain ⟨ga, mo, el, er, pl, po, ao, pr, dl, db, n⟩ := o
  cases ga <;> cases mo <;> cases el <;> cases er <;> cases pl <;> cases po <;>
    cases ao <;> cases pr <;> cases dl <;> cases db <;>
      first
        | decide
        | simp [transcribeSessions, releaseAll, expectedSess, List.all_eq_true,
            List.mem_map, List.mem_range]

/-- C3: for every model oracle and prefill token, the decode loop
terminates with a generated stream of at most MAX_NEW_TOKENS tokens
(so at most MAX_NEW_TOKENS - 1 loop iterations), it halts before running
the decode session when the prefill token is already EOS, and an EOS
token can only stand at the end of the stream: every token before the
last position is not EOS. -/
theorem c3_decode_termination (next : Nat → Nat → Nat) (first : Nat) :
    (genStream next first).length ≤ MAX_NEW_TOKENS ∧
    (is_eos first = true → genStream next first = [first]) ∧
    ∀ i, i + 1 < (genStream next first).length →
      is_eos ((genStream next first).getD i 0) = false := by
  refine ⟨?_, ?_, ?_⟩
  · have h := decodeGo_length_le next (MAX_NEW_TOKENS - 1) first 0
    simp only [MAX_NEW_TOKENS] at h
    simp only [genStream, MAX_NEW_TOKENS, List.length_cons]
    omega
  · intro h
    simp [genStream, decodeGo_eos next first 0 _ h]
  · intro i hi
    have := stream_mid_eos next (MAX_NEW_TOKENS - 1) first 0 i
    simp only [genStream] at hi ⊢
    exact this hi

theorem c3_witness :
    (genStream (fun _ _ => 151643) 7).length ≤ MAX_NEW_TOKENS ∧
    is_eos ((genStream (fun _ _ => 151643) 7).getD 0 0) = false :=
  ⟨(c3_decode_termination (fun _ _ => 151643) 7).1,
   (c3_decode_termination (fun _ _ => 151643) 7).2.2 0 (by decide)⟩

/-- C8: the mel buffer is padded to the least multiple of 100 at or above
the extracted frame count: padded_frames is a multiple of 100, lies in
[n_frames, n_frames + 100), no padding happens when n_frames is already a
multiple of 100, the padded buffer has melBins * padded_frames entries
whose prefix is the original buffer and whose tail is all zeros, so every
original frame-column is preserved and every appended column is zero. -/
theorem c8_mel_padding (melBins nFrames : Nat) (mel : List ℚ)
    (hlen : mel.length = melBins * nFrames) :
    paddedFrames nFrames % 100 = 0 ∧
    nFrames ≤ paddedFrames nFrames ∧
    paddedFrames nFrames < nFrames + 100 ∧
    (nFrames % 100 = 0 → padMelBuffer melBins nFrames mel = mel) ∧
    (padMelBuffer melBins nFrames mel).length = melBins * paddedFrames nFrames ∧
    (padMelBuffer melBins nFrames mel).take (melBins * nFrames) = mel ∧
    (padMelBuffer melBins nFrames mel).drop (melBins * nFrames) =
      List.replicate (melBins * paddedFrames nFrames - melBins * nFrames) (0 : ℚ) ∧
    (∀ t, t < nFrames →
      ((padMelBuffer melBins nFrames mel).drop (melBins * t)).take melBins =
        (mel.drop (melBins * t)).take melBins) ∧
    ∀ t, nFrames ≤ t → t < paddedFrames nFrames →
      ((padMelBuffer melBins nFrames mel).drop (melBins * t)).take melBins =
        List.replicate melBins (0 : ℚ) := by
  have hpad100 : paddedFrames nFrames % 100 = 0 := by
    simp only [paddedFrames, padFrames, CHUNK_SIZE]; omega
  have hle : nFrames ≤ paddedFrames nFrames := by simp only [paddedFrames]; omega
  have hlt : paddedFrames nFrames < nFrames + 100 := by
    simp only [paddedFrames, padFrames, CHUNK_SIZE]; omega
  have hmle : melBins * nFrames ≤ melBins * paddedFrames nFrames :=
    Nat.mul_le_mul_left _ hle
  by_cases hp : 0 < padFrames nFrames
  · have hP : padMelBuffer melBins nFrames mel =
        mel ++ List.replicate (melBins * paddedFrames nFrames - melBins * nFrames) 0 := by
      simp only [padMelBuffer, if_pos hp]
      rw [← hlen, List.take_length]
    refine ⟨hpad100, hle, hlt, ?_, ?_, ?_, ?_, ?_, ?_⟩
    · intro h0
      exfalso
      simp only [padFrames, CHUNK_SIZE] at hp
      omega
    · rw [hP]
      simp only [List.length_append, List.length_replicate, hlen]
      omega
    · rw [hP, List.take_append_of_le_length (le_of_eq hlen.symm), ← hlen, List.take_length]
    · rw [hP, List.drop_append_of_le_length (le_of_eq hlen.symm), ← hlen, List.drop_length,
        List.nil_append]
    · intro t ht
      have h1 : melBins * t ≤ mel.length := by
        rw [hlen]
        exact Nat.mul_le_mul_left _ (by omega)
      have h2 : melBins * (t + 1) ≤ melBins * nFrames := Nat.mul_le_mul_left _ (by omega)
      rw [Nat.mul_succ] at h2
      rw [hP, List.drop_append_of_le_length h1, List.take_append_of_le_length ?_]
      rw [List.length_drop, hlen]
      omega
    · intro t h1 h2
      have hsplit : melBins * t = mel.length + (melBins * t - melBins * nFrames) := by
        have := Nat.mul_le_mul_left melBins h1
        rw [hlen]
        omega
      have h3 : melBins * (t + 1) ≤ melBins * paddedFrames nFrames :=
        Nat.mul_le_mul_left _ (by omega)
      rw [Nat.mul_succ] at h3
      rw [hP, hsplit, List.drop_append, List.drop_replicate, List.take_replicate]
      congr 1
      have := Nat.mul_le_mul_left melBins h1
      omega
  · have h0 : padFrames nFrames = 0 := by omega
    have hpe : paddedFrames nFrames = nFrames := by simp [paddedFrames, h0]
    have hP : padMelBuffer melBins nFrames mel = mel := by simp [padMelBuffer, hp]
    refine ⟨hpad100, hle, hlt, fun _ => hP, ?_, ?_, ?_, ?_, ?_⟩
    · rw [hP, hlen, hpe]
    · rw [hP, ← hlen, List.take_length]
    · rw [hP, hpe, Nat.sub_self, List.replicate_zero, ← hlen, List.drop_length]
    · intro t ht
      rw [hP]
    · intro t h1 h2
      rw [hpe] at h2
      omega

theorem c8_witness :
    paddedFrames 1 % 100 = 0 ∧
    (padMelBuffer 1 1 [(5 : ℚ)]).length = 1 * paddedFrames 1 ∧
    (padMelBuffer 1 1 [(5 : ℚ)]).take (1 * 1) = [(5 : ℚ)] ∧
    ((padMelBuffer 1 1 [(5 : ℚ)]).drop (1 * 1)).take 1 = List.replicate 1 (0 : ℚ) :=
  have h := c8_mel_padding 1 1 [(5 : ℚ)] rfl
  ⟨h.1, h.2.2.2.2.1, h.2.2.2.2.2.1, h.2.2.2.2.2.2.2.2 1 (by decide) (by decide)⟩

/- Invariant of the argmax_f32 scan, phrased against the full list L with
the scan position i as the split point. -/
lemma argmaxGo_spec (L : List ℚ) :
    ∀ (xs : List ℚ) (i best : Nat) (bestVal : ℚ),
      i ≤ L.length → L.drop i = xs → best < i → L.getD best 0 = bestVal →
      (∀ j, j < i → L.getD j 0 ≤ bestVal) →
      (∀ j, j < best → L.getD j 0 < bestVal) →
      argmaxGo xs i best bestVal < L.length ∧
      (∀ j, j < L.length → L.getD j 0 ≤ L.getD (argmaxGo xs i best bestVal) 0) ∧
      (∀ j, j < argmaxGo xs i best bestVal →
        L.getD j 0 < L.getD (argmaxGo xs i best bestVal) 0) := by
  intro xs
  induction xs with
  | nil =>
    intro i best bestVal h1 h2 h3 h4 h5 h6
    have hiL : L.length ≤ i := by
      have := congrArg List.length h2
      simp only [List.length_drop, List.length_nil] at this
      omega
    simp only [argmaxGo]
    refine ⟨by omega, ?_, ?_⟩
    · intro j hj
      rw [h4]
      exact h5 j (by omega)
    · intro j hj
      rw [h4]
      exact h6 j hj
  | cons x xs ih =>
    intro i best bestVal h1 h2 h3 h4 h5 h6
    have hi : i < L.length := by
      have := congrArg List.length h2
      simp only [List.length_drop, List.length_cons] at this
      omega
    have hx : L.getD i 0 = x := by
      have hsome : (L.drop i)[0]? = some x := by rw [h2]; simp
      rw [List.getElem?_drop, Nat.add_zero] at hsome
      rw [List.getD_eq_getElem?_getD, hsome]
      rfl
    have hdrop : L.drop (i + 1) = xs := by
      have hdd := List.drop_drop 1 i L
      rw [h2] at hdd
      simpa using hdd.symm
    simp only [argmaxGo]
    by_cases hc : bestVal < x
    · rw [if_pos hc]
      refine ih (i + 1) i x (by omega) hdrop (by omega) hx ?_ ?_
      · intro j hj
        rcases Nat.lt_or_ge j i with hji | hji
        · exact le_of_lt (lt_of_le_of_lt (h5 j hji) hc)
        · have hje : j = i := by omega
          rw [hje, hx]
      · intro j hj
        exact lt_of_le_of_lt (h5 j hj) hc
    · rw [if_neg hc]
      refine ih (i + 1) best bestVal (by omega) hdrop (by omega) h4 ?_ h6
      intro j hj
      rcases Nat.lt_or_ge j i with hji | hji
      · exact h5 j hji
      · have hje : j = i := by omega
        rw [hje, hx]
        exact le_of_not_lt hc

/-- C10: on every nonempty logits vector, argmax_f32 returns a valid
index attaining the maximum, and every earlier index holds a strictly
smaller value (so it is the smallest index attaining the maximum, by the
strict greater-than scan); consequently the decode loop over a fixed
logits oracle is deterministic: two oracles that agree pointwise generate
identical token streams. -/
theorem c10_argmax_first_max (l : List ℚ) (hl : l ≠ []) :
    (argmax_f32 l < l.length ∧
     (∀ j, j < l.length → l.getD j 0 ≤ l.getD (argmax_f32 l) 0) ∧
     (∀ j, j < argmax_f32 l → l.getD j 0 < l.getD (argmax_f32 l) 0)) ∧
    (∀ (lg1 lg2 : Nat → Nat → List ℚ) (first : Nat),
      (∀ s t, lg1 s t = lg2 s t) →
      genStreamLogits lg1 first = genStreamLogits lg2 first) := by
  constructor
  · obtain ⟨x, xs, rfl⟩ := List.exists_cons_of_ne_nil hl
    simp only [argmax_f32]
    refine argmaxGo_spec (x :: xs) xs 1 0 x (by simp) (by simp) (by omega) (by simp) ?_ ?_
    · intro j hj
      have hj0 : j = 0 := by omega
      simp [hj0]
    · intro j hj
      omega
  · intro lg1 lg2 first h
    have he : lg1 = lg2 := funext (fun s => funext (fun t => h s t))
    rw [he]

theorem c10_witness :
    (argmax_f32 [(1 : ℚ), 3, 3, 2] < ([(1 : ℚ), 3, 3, 2]).length ∧
     ([(1 : ℚ), 3, 3, 2]).getD 0 0 ≤ ([(1 : ℚ), 3, 3, 2]).getD (argmax_f32 [(1 : ℚ), 3, 3, 2]) 0 ∧
     ([(1 : ℚ), 3, 3, 2]).getD 0 0 < ([(1 : ℚ), 3, 3, 2]).getD (argmax_f32 [(1 : ℚ), 3, 3, 2]) 0) ∧
    genStreamLogits (fun _ _ => [(1 : ℚ)]) 5 = genStreamLogits (fun _ _ => [(1 : ℚ)]) 5 :=
  have h := c10_argmax_first_max [(1 : ℚ), 3, 3, 2] (List.cons_ne_nil _ _)
  ⟨⟨h.1.1, h.1.2.1 0 (by decide), h.1.2.2 0 (by decide)⟩,
   h.2 (fun _ _ => [(1 : ℚ)]) (fun _ _ => [(1 : ℚ)]) 5 (fun _ _ => rfl)⟩

/- Length of a block of embedding rows. -/
lemma embedRows_length (emb : Nat → Nat) (hidden : Nat) (toks : List Nat) :
    ((toks.map (fun t => embed_token_fp16 emb t hidden)).flatten).length =
      toks.length * hidden := by
  induction toks with
  | nil => simp
  | cons t ts ih =>
    have hrow : (embed_token_fp16 emb t hidden).length = hidden := by
      simp [embed_token_fp16]
    simp only [List.map_cons, List.flatten_cons, List.length_append, hrow, ih, List.length_cons]
    ring

/-- C2: the prompt embedding buffer built around an encoder output of
nAudio rows has exactly (9 + nAudio + 6) * hidden entries: its first
9 * hidden entries are the embeddings of the fixed prefix token ids
151644, 8948, 198, 151645, 198, 151644, 872, 198, 151669, the next
nAudio * hidden entries are the encoder output copied unchanged, and the
last 6 * hidden entries are the embeddings of the fixed suffix token ids
151670, 151645, 198, 151644, 77091, 198. -/
theorem c2_prompt_layout (emb : Nat → Nat) (hidden nAudio : Nat) (audio : List Nat)
    (hlen : audio.length = nAudio * hidden) :
    (buildInputEmbeds emb hidden audio).length = (9 + nAudio + 6) * hidden ∧
    (buildInputEmbeds emb hidden audio).take (9 * hidden) =
      (([151644, 8948, 198, 151645, 198, 151644, 872, 198, 151669] : List Nat).map
        (fun t => embed_token_fp16 emb t hidden)).flatten ∧
    ((buildInputEmbeds emb hidden audio).drop (9 * hidden)).take (nAudio * hidden) = audio ∧
    (buildInputEmbeds emb hidden audio).drop ((9 + nAudio) * hidden) =
      (([151670, 151645, 198, 151644, 77091, 198] : List Nat).map
        (fun t => embed_token_fp16 emb t hidden)).flatten := by
  have hpre := embedRows_length emb hidden PROMPT_PREFIX_IDS
  have hsuf := embedRows_length emb hidden PROMPT_SUFFIX_IDS
  simp only [PROMPT_PREFIX_IDS, PROMPT_SUFFIX_IDS, List.length_cons, List.length_nil]
    at hpre hsuf
  refine ⟨?_, ?_, ?_, ?_⟩
  · simp only [buildInputEmbeds, List.length_append, hpre, hsuf, hlen,
      PROMPT_PREFIX_IDS, PROMPT_SUFFIX_IDS]
    ring
  · simp only [buildInputEmbeds, PROMPT_PREFIX_IDS, PROMPT_SUFFIX_IDS, List.append_assoc]
    exact List.take_left' (by simpa using hpre)
  · simp only [buildInputEmbeds, PROMPT_PREFIX_IDS, PROMPT_SUFFIX_IDS, List.append_assoc]
    rw [List.drop_left' (by simpa using hpre)]
    exact List.take_left' hlen
  · simp only [buildInputEmbeds, PROMPT_PREFIX_IDS, PROMPT_SUFFIX_IDS]
    refine List.drop_left' ?_
    simp only [List.length_append]
    rw [hpre, hlen]
    ring

theorem c2_witness :
    (buildInputEmbeds (fun _ => 0) 1 [7, 8]).length = (9 + 2 + 6) * 1 ∧
    (buildInputEmbeds (fun _ => 0) 1 [7, 8]).take (9 * 1) =
      (([151644, 8948, 198, 151645, 198, 151644, 872, 198, 151669] : List Nat).map
        (fun t => embed_token_fp16 (fun _ => 0) t 1)).flatten ∧
    ((buildInputEmbeds (fun _ => 0) 1 [7, 8]).drop (9 * 1)).take (2 * 1) = [7, 8] ∧
    (buildInputEmbeds (fun _ => 0) 1 [7, 8]).drop ((9 + 2) * 1) =
      (([151670, 151645, 198, 151644, 77091, 198] : List Nat).map
        (fun t => embed_token_fp16 (fun _ => 0) t 1)).flatten :=
  c2_prompt_layout (fun _ => 0) 1 2 [7, 8] rfl

/- Detokenization lemmas. -/

lemma detokScan_past_true (dec : Nat → Option (List Char)) (asr : Nat) :
    ∀ l, detokScan dec asr l true =
      ((l.filter (fun t => decide (t ≠ asr))).map (fun t => (dec t).getD [])).flatten := by
  intro l
  induction l with
  | nil => simp [detokScan]
  | cons t ts ih =>
    by_cases ht : t = asr
    · simp [detokScan, ht, ih]
    · simp [detokScan, ht, ih]

lemma detokScan_found (dec : Nat → Option (List Char)) (asr : Nat) :
    ∀ l, (l.any (fun t => decide (t = asr))) = true →
      detokScan dec asr l false =
        (((l.drop (sentinelPos asr l + 1)).filter (fun t => decide (t ≠ asr))).map
          (fun t => (dec t).getD [])).flatten := by
  intro l
  induction l with
  | nil => simp
  | cons t ts ih =>
    intro hany
    by_cases ht : t = asr
    · simp [detokScan, sentinelPos, ht, detokScan_past_true]
    · have hts : (ts.any (fun t => decide (t = asr))) = true := by
        simpa [ht] using hany
      simp [detokScan, sentinelPos, ht, ih hts]

lemma detokAll_eq (dec : Nat → Option (List Char)) :
    ∀ l, detokAll dec l =
      ((l.filter (fun t => decide (t < 151643))).map (fun t => (dec t).getD [])).flatten := by
  intro l
  induction l with
  | nil => simp [detokAll]
  | cons t ts ih =>
    by_cases ht : 151643 ≤ t
    · have : ¬ t < 151643 := by omega
      simp [detokAll, ht, this, ih]
    · have : t < 151643 := by omega
      simp [detokAll, ht, this, ih]

/-- C1: the detokenization stage equals its specification: after
stripping trailing EOS tokens (ids 151643 and 151645), if the sentinel
occurs the output is the concatenation of the decoded pieces of the
tokens after its first occurrence, skipping every occurrence of the
sentinel, with outer space, tab and newline trimmed; if the sentinel does
not occur the output is the concatenation of the pieces of all tokens
with id strictly below 151643, likewise trimmed. -/
theorem c1_detokenization (dec : Nat → Option (List Char)) (asr : Nat) (g : List Nat) :
    qwen_detokenize dec asr g = specTranscript dec asr g := by
  simp only [qwen_detokenize, specTranscript]
  by_cases hany : ((stripTrailingEos g).any (fun t => decide (t = asr))) = true
  · rw [if_pos hany, if_pos hany, detokScan_found dec asr _ hany]
  · have hf : ((stripTrailingEos g).any (fun t => decide (t = asr))) = false :=
      Bool.not_eq_true _ ▸ Bool.eq_false_iff.mpr (fun hc => hany hc)
    rw [if_neg (by simp [hf]), if_neg (by simp [hf]), detokAll_eq]

/- ===================================================================== -/
/- Bit-arithmetic toolkit                                                -/
/- ===================================================================== -/

lemma and_32768_eq (x : Nat) : x &&& 32768 = x / 32768 % 2 * 32768 := by
  have h := Nat.and_two_pow x 15
  rw [Nat.testBit_to_div_mod] at h
  norm_num at h
  rw [h]
  by_cases hc : x / 32768 % 2 = 1
  · simp [hc]
  · simp only [hc, decide_False, Bool.toNat_false, Nat.zero_mul]
    omega

lemma and_1024_eq (x : Nat) : x &&& 1024 = x / 1024 % 2 * 1024 := by
  have h := Nat.and_two_pow x 10
  rw [Nat.testBit_to_div_mod] at h
  norm_num at h
  rw [h]
  by_cases hc : x / 1024 % 2 = 1
  · simp [hc]
  · simp only [hc, decide_False, Bool.toNat_false, Nat.zero_mul]
    omega

lemma and_1023_eq (x : Nat) : x &&& 1023 = x % 1024 := by
  have h := Nat.and_pow_two_sub_one_eq_mod x 10
  norm_num at h
  exact h

lemma and_255_eq (x : Nat) : x &&& 255 = x % 256 := by
  have h := Nat.and_pow_two_sub_one_eq_mod x 8
  norm_num at h
  exact h

lemma and_31_eq (x : Nat) : x &&& 31 = x % 32 := by
  have h := Nat.and_pow_two_sub_one_eq_mod x 5
  norm_num at h
  exact h

lemma or_add_2p31 (a b : Nat) (hb : b < 2147483648) :
    a * 2147483648 ||| b = a * 2147483648 + b := by
  have h := Nat.mul_add_lt_is_or (i := 31) (b := b) (by norm_num; exact hb) a
  norm_num at h
  rw [Nat.mul_comm a 2147483648]
  exact h.symm

lemma or_add_2p23 (a b : Nat) (hb : b < 8388608) :
    a * 8388608 ||| b = a * 8388608 + b := by
  have h := Nat.mul_add_lt_is_or (i := 23) (b := b) (by norm_num; exact hb) a
  norm_num at h
  rw [Nat.mul_comm a 8388608]
  exact h.symm

lemma or_add_2p15 (a b : Nat) (hb : b < 32768) :
    a * 32768 ||| b = a * 32768 + b := by
  have h := Nat.mul_add_lt_is_or (i := 15) (b := b) (by norm_num; exact hb) a
  norm_num at h
  rw [Nat.mul_comm a 32768]
  exact h.symm

lemma or_add_2p10 (a b : Nat) (hb : b < 1024) :
    a * 1024 ||| b = a * 1024 + b := by
  have h := Nat.mul_add_lt_is_or (i := 10) (b := b) (by norm_num; exact hb) a
  norm_num at h
  rw [Nat.mul_comm a 1024]
  exact h.symm

/- Composition of disjoint binary32 fields through bitwise or. -/
lemma f32_compose (s E M2 : Nat) (hE : E < 256) (hM : M2 < 8388608) :
    s * 2147483648 ||| E * 8388608 ||| M2 = s * 2147483648 + E * 8388608 + M2 := by
  rw [or_add_2p31 s (E * 8388608) (by omega)]
  have h2 : s * 2147483648 + E * 8388608 = (s * 256 + E) * 8388608 := by ring
  rw [h2, or_add_2p23 _ _ hM, ← h2]

/- Composition of disjoint binary16 fields through bitwise or. -/
lemma f16_compose (s Ev m10 : Nat) (hE : Ev < 32) (hm : m10 < 1024) :
    s * 32768 ||| Ev * 1024 ||| m10 = s * 32768 + Ev * 1024 + m10 := by
  rw [or_add_2p15 s (Ev * 1024) (by omega)]
  have h2 : s * 32768 + Ev * 1024 = (s * 32 + Ev) * 1024 := by ring
  rw [h2, or_add_2p10 _ _ hm, ← h2]

/- Field views of a packed binary32 pattern. -/
lemma f32_fields (b s E M : Nat) (hb : b = s * 2147483648 + E * 8388608 + M)
    (hs : s < 2) (hE : E < 256) (hM : M < 8388608) :
    f32SignF b = s ∧ f32ExpF b = E ∧ f32ManF b = M := by
  subst hb
  unfold f32SignF f32ExpF f32ManF
  refine ⟨by omega, by omega, by omega⟩

/- Field views of a packed binary16 pattern. -/
lemma f16_fields_arith (h s e m : Nat) (hh : h = s * 32768 + e * 1024 + m)
    (hs : s < 2) (he : e < 32) (hm : m < 1024) :
    f16SignF h = s ∧ f16ExpF h = e ∧ f16ManF h = m := by
  subst hh
  unfold f16SignF f16ExpF f16ManF
  refine ⟨by omega, by omega, by omega⟩

/- Closed form of the truncating reverse codec on a packed binary32
pattern. -/
lemma f32_to_f16_char (b s E M : Nat) (hb : b = s * 2147483648 + E * 8388608 + M)
    (hs : s < 2) (hE : E < 256) (hM : M < 8388608) :
    f32_bits_to_f16 b =
      if E ≤ 112 then s * 32768
      else if 143 ≤ E then s * 32768 + 31744
      else s * 32768 + (E - 112) * 1024 + M / 8192 := by
  subst hb
  simp only [f32_bits_to_f16]
  have h1 : ((s * 2147483648 + E * 8388608 + M) >>> 16) &&& 32768 = s * 32768 := by
    rw [Nat.shiftRight_eq_div_pow, and_32768_eq]
    norm_num
    omega
  have h2 : ((s * 2147483648 + E * 8388608 + M) >>> 23) &&& 255 = E := by
    rw [Nat.shiftRight_eq_div_pow, and_255_eq]
    norm_num
    omega
  have h3 : ((s * 2147483648 + E * 8388608 + M) >>> 13) &&& 1023 = M / 8192 := by
    rw [Nat.shiftRight_eq_div_pow, and_1023_eq]
    norm_num
    omega
  rw [h1, h2, h3]
  by_cases hE1 : E ≤ 112
  · rw [if_pos (by omega), if_pos hE1]
  · by_cases hE2 : 143 ≤ E
    · rw [if_neg (by omega), if_pos (by omega), if_neg hE1, if_pos hE2]
      exact or_add_2p15 s 31744 (by omega)
    · rw [if_neg (by omega), if_neg (by omega), if_neg hE1, if_neg hE2]
      have htn : (((E : Int) - 127 + 15)).toNat = E - 112 := by omega
      rw [htn, Nat.shiftLeft_eq]
      norm_num
      rw [f16_compose s (E - 112) (M / 8192) (by omega) (by omega)]

/-- C7: on every binary32 input (decomposed into its sign, exponent and
mantissa fields), the fallback conversion used by the fp32 NPY loader
truncates the mantissa, flushes every input with non-positive rebiased
exponent to a zero carrying the sign, and saturates every input with
rebiased exponent at least 31 to an infinity carrying the sign. -/
theorem c7_f32_to_f16_fallback (s E M : Nat) (hs : s < 2) (hE : E < 256) (hM : M < 8388608) :
    f32_bits_to_f16 (s * 2147483648 + E * 8388608 + M) = f32ToF16SpecTrunc s E M := by
  rw [f32_to_f16_char (s * 2147483648 + E * 8388608 + M) s E M rfl hs hE hM]
  unfold f32ToF16SpecTrunc
  by_cases h1 : E ≤ 112
  · rw [if_pos h1, if_pos (show ((E : Int) - 112 ≤ 0) by omega)]
  · by_cases h2 : 143 ≤ E
    · rw [if_neg h1, if_pos h2, if_neg (show ¬ ((E : Int) - 112 ≤ 0) by omega),
        if_pos (show ((31 : Int) ≤ (E : Int) - 112) by omega)]
    · rw [if_neg h1, if_neg h2, if_neg (show ¬ ((E : Int) - 112 ≤ 0) by omega),
        if_neg (show ¬ ((31 : Int) ≤ (E : Int) - 112) by omega)]

theorem c7_witness :
    f32_bits_to_f16 (0 * 2147483648 + 120 * 8388608 + 8191) = f32ToF16SpecTrunc 0 120 8191 :=
  c7_f32_to_f16_fallback 0 120 8191 (by omega) (by omega) (by omega)

/- Specification of the renormalization loop: it multiplies the mantissa
by the power of two that brings it into [1024, 2048) and subtracts the
shift count from the exponent. -/
lemma fp16Norm_spec : ∀ (fuel m : Nat) (e : Int), 0 < m → m < 2048 → 1024 ≤ m * 2 ^ fuel →
    ∃ k, k ≤ fuel ∧ 1024 ≤ m * 2 ^ k ∧ m * 2 ^ k < 2048 ∧
      fp16Norm m e fuel = (m * 2 ^ k, e - k) := by
  intro fuel
  induction fuel with
  | zero =>
    intro m e h1 h2 h3
    exact ⟨0, Nat.le_refl 0, by simpa using h3, by simpa using h2, by simp [fp16Norm]⟩
  | succ f ih =>
    intro m e h1 h2 h3
    by_cases hm : 1024 ≤ m
    · have hand : ¬ (m &&& 1024 = 0) := by rw [and_1024_eq]; omega
      exact ⟨0, by omega, by simpa using hm, by simpa using h2, by simp [fp16Norm, hand]⟩
    · have hand : m &&& 1024 = 0 := by rw [and_1024_eq]; omega
      have hs2 : m <<< 1 = m * 2 := by rw [Nat.shiftLeft_eq, pow_one]
      have hpow : m * 2 * 2 ^ f = m * 2 ^ (f + 1) := by ring
      obtain ⟨k, hk1, hk2, hk3, hk4⟩ :=
        ih (m * 2) (e - 1) (by omega) (by omega) (by rw [hpow]; exact h3)
      have hp2 : m * 2 * 2 ^ k = m * 2 ^ (k + 1) := by ring
      refine ⟨k + 1, by omega, by rw [← hp2]; exact hk2, by rw [← hp2]; exact hk3, ?_⟩
      simp only [fp16Norm]
      rw [if_pos hand, hs2, hk4, hp2]
      congr 1
      push_cast
      ring

/- Bit-level field extraction from a packed binary16 pattern, in the
shapes used inside fp16_to_f32. -/
lemma f16_bitfields (h s e m : Nat) (hh : h = s * 32768 + e * 1024 + m)
    (hs : s < 2) (he : e < 32) (hm : m < 1024) :
    (h >>> 15) <<< 31 = s * 2147483648 ∧ ((h >>> 10) &&& 31 = e) ∧ (h &&& 1023 = m) := by
  subst hh
  refine ⟨?_, ?_, ?_⟩
  · rw [Nat.shiftRight_eq_div_pow, Nat.shiftLeft_eq]
    norm_num
    have hq : (s * 32768 + e * 1024 + m) / 32768 = s := by omega
    rw [hq]
  · rw [Nat.shiftRight_eq_div_pow, and_31_eq]
    norm_num
    omega
  · rw [and_1023_eq]
    omega

/- Closed form of fp16_to_f32 on a signed zero. -/
lemma fp16_to_f32_zero (h s : Nat) (hh : h = s * 32768) (hs : s < 2) :
    fp16_to_f32 h = s * 2147483648 := by
  obtain ⟨hf1, hf2, hf3⟩ := f16_bitfields h s 0 0 (by omega) hs (by omega) (by omega)
  simp only [fp16_to_f32, hf1, hf2, hf3]
  norm_num

/- Closed form of fp16_to_f32 on a normal input: rebias the exponent by
112 and widen the mantissa by 13 bits. -/
lemma fp16_to_f32_normal (h s e m : Nat) (hh : h = s * 32768 + e * 1024 + m)
    (hs : s < 2) (he1 : 1 ≤ e) (he2 : e ≤ 30) (hm : m < 1024) :
    fp16_to_f32 h = s * 2147483648 + (e + 112) * 8388608 + m * 8192 := by
  obtain ⟨hf1, hf2, hf3⟩ := f16_bitfields h s e m hh hs (by omega) hm
  simp only [fp16_to_f32, hf1, hf2, hf3]
  rw [if_neg (by omega), if_neg (by omega), Nat.shiftLeft_eq, Nat.shiftLeft_eq]
  norm_num
  have hstep : e + 127 - 15 = e + 112 := by omega
  rw [hstep]
  exact f32_compose s (e + 112) (m * 8192) (by omega) (by omega)

/- Closed form of fp16_to_f32 on the exponent-31 band (infinities and
NaNs): exponent becomes 255, the mantissa widens by 13 bits. -/
lemma fp16_to_f32_expmax (h s m : Nat) (hh : h = s * 32768 + 31 * 1024 + m)
    (hs : s < 2) (hm : m < 1024) :
    fp16_to_f32 h = s * 2147483648 + 255 * 8388608 + m * 8192 := by
  obtain ⟨hf1, hf2, hf3⟩ := f16_bitfields h s 31 m hh hs (by omega) hm
  simp only [fp16_to_f32, hf1, hf2, hf3]
  rw [if_neg (show ¬ ((31 : Nat) = 0) by omega), if_pos trivial, Nat.shiftLeft_eq]
  norm_num
  rw [show (2139095040 : Nat) = 255 * 8388608 by norm_num]
  exact f32_compose s 255 (m * 8192) (by omega) (by omega)

/- Closed form of fp16_to_f32 on a subnormal input: the mantissa is
renormalized into [1024, 2048) by a shift of k places and the exponent
field becomes 113 - k. -/
lemma fp16_to_f32_subnormal (h s m : Nat) (hh : h = s * 32768 + m)
    (hs : s < 2) (hm1 : 0 < m) (hm : m < 1024) :
    ∃ k, 1 ≤ k ∧ k ≤ 10 ∧ 1024 ≤ m * 2 ^ k ∧ m * 2 ^ k < 2048 ∧
      fp16_to_f32 h = s * 2147483648 + (113 - k) * 8388608 + (m * 2 ^ k - 1024) * 8192 := by
  obtain ⟨hf1, hf2, hf3⟩ := f16_bitfields h s 0 m (by omega) hs (by omega) hm
  have h2048 : (1024 : Nat) ≤ m * 2 ^ 11 := by
    have hstep : 1 * 2 ^ 11 ≤ m * 2 ^ 11 := Nat.mul_le_mul_right _ hm1
    norm_num at hstep
    omega
  obtain ⟨k, hk1, hk2, hk3, hk4⟩ := fp16Norm_spec 11 m 1 hm1 (by omega) h2048
  have hkge : 1 ≤ k := by
    by_contra hc
    have hk0 : k = 0 := by omega
    rw [hk0] at hk2
    simp at hk2
    omega
  have hkle : k ≤ 10 := by
    by_contra hc
    have hk11 : k = 11 := by omega
    rw [hk11] at hk3
    norm_num at hk3
    omega
  refine ⟨k, hkge, hkle, hk2, hk3, ?_⟩
  simp only [fp16_to_f32, hf1, hf2, hf3]
  rw [if_pos trivial, if_neg (show ¬ (m = 0) by omega), hk4]
  have htn : (1 - (k : Int) + 127 - 15).toNat = 113 - k := by omega
  have hma : (m * 2 ^ k) &&& 1023 = m * 2 ^ k - 1024 := by
    rw [and_1023_eq]
    set M2 := m * 2 ^ k
    omega
  dsimp only
  rw [htn, hma, Nat.shiftLeft_eq, Nat.shiftLeft_eq]
  norm_num
  refine f32_compose s (113 - k) ((m * 2 ^ k - 1024) * 8192) (by omega) ?_
  set M2 := m * 2 ^ k
  omega

/-- C6: for every 16-bit input, fp16_to_f32 is the exact IEEE 754
binary16 to binary32 conversion: the sign is preserved, the NaN band and
the infinities map onto the binary32 NaN band and infinities, normal
inputs keep their mantissa bits with the exponent rebiased by 112, and
every input outside the exponent-31 band (zeros, subnormals and normals)
maps to the binary32 pattern of the exact same real value. -/
theorem c6_fp16_to_f32_ieee (h : Nat) (hh : h < 65536) :
    f32SignF (fp16_to_f32 h) = f16SignF h ∧
    (f32IsNaN (fp16_to_f32 h) ↔ f16IsNaN h) ∧
    (f32IsInf (fp16_to_f32 h) ↔ f16IsInf h) ∧
    (1 ≤ f16ExpF h → f16ExpF h ≤ 30 →
      f32ExpF (fp16_to_f32 h) = f16ExpF h + 112 ∧
      f32ManF (fp16_to_f32 h) = f16ManF h * 8192) ∧
    (¬ f16IsNaN h → ¬ f16IsInf h → val32 (fp16_to_f32 h) = val16 h) := by
  obtain ⟨hs, he, hm, hd⟩ : h / 32768 < 2 ∧ h / 1024 % 32 < 32 ∧ h % 1024 < 1024 ∧
      h = (h / 32768) * 32768 + (h / 1024 % 32) * 1024 + h % 1024 :=
    ⟨by omega, by omega, by omega, by omega⟩
  set s := h / 32768 with hsdef
  set e := h / 1024 % 32 with hedef
  set m := h % 1024 with hmdef
  obtain ⟨hsf, hef, hmf⟩ := f16_fields_arith h s e m hd hs he hm
  by_cases he0 : e = 0
  · by_cases hm0 : m = 0
    · have hz := fp16_to_f32_zero h s (by omega) hs
      obtain ⟨g1, g2, g3⟩ :=
        f32_fields (fp16_to_f32 h) s 0 0 (by rw [hz]; ring) hs (by omega) (by omega)
      refine ⟨by rw [g1, hsf], ?_, ?_, ?_, ?_⟩
      · simp [f32IsNaN, f16IsNaN, g2, hef, he0]
      · simp [f32IsInf, f16IsInf, g2, hef, he0]
      · intro hx
        rw [hef] at hx
        omega
      · intro _ _
        simp [val32, val16, g1, g2, g3, hsf, hef, hmf, he0, hm0]
    · obtain ⟨k, hkge, hkle, hk2, hk3, hval⟩ :=
        fp16_to_f32_subnormal h s m (by omega) hs (by omega) hm
      have hMb : (m * 2 ^ k - 1024) * 8192 < 8388608 := by
        set M2 := m * 2 ^ k
        omega
      obtain ⟨g1, g2, g3⟩ :=
        f32_fields (fp16_to_f32 h) s (113 - k) ((m * 2 ^ k - 1024) * 8192) (by rw [hval])
          hs (by omega) hMb
      refine ⟨by rw [g1, hsf], ?_, ?_, ?_, ?_⟩
      · simp only [f32IsNaN, f16IsNaN, g2, hef]
        constructor
        · intro hc
          omega
        · intro hc
          omega
      · simp only [f32IsInf, f16IsInf, g2, hef]
        constructor
        · intro hc
          omega
        · intro hc
          omega
      · intro hx
        rw [hef] at hx
        omega
      · intro _ _
        have hfac : ((8388608 : Int) + ((m * 2 ^ k - 1024) * 8192 : Nat)) *
            2 ^ ((113 - k) - 1) = (m : Int) * 2 ^ 125 := by
          have hkk : (113 - k) - 1 = 112 - k := by omega
          have hcast : (((m * 2 ^ k - 1024) * 8192 : Nat) : Int) =
              ((m : Int) * 2 ^ k - 1024) * 8192 := by
            rw [Nat.cast_mul, Nat.cast_sub hk2]
            push_cast
            ring
          have h112 : (2 : Int) ^ k * 2 ^ (112 - k) = 2 ^ 112 := by
            rw [← pow_add]
            congr 1
            omega
          rw [hkk, hcast]
          calc ((8388608 : Int) + ((m : Int) * 2 ^ k - 1024) * 8192) * 2 ^ (112 - k)
              = (m : Int) * 8192 * (2 ^ k * 2 ^ (112 - k)) := by ring
            _ = (m : Int) * 8192 * 2 ^ 112 := by rw [h112]
            _ = (m : Int) * 2 ^ 125 := by ring
        simp only [val32, val16, g1, g2, g3, hsf, hef, hmf, he0]
        rw [if_neg (show ¬ ((113 - k : Nat) = 0) by omega), hfac]
        simp
  · by_cases he31 : e = 31
    · have hx := fp16_to_f32_expmax h s m (by omega) hs hm
      obtain ⟨g1, g2, g3⟩ :=
        f32_fields (fp16_to_f32 h) s 255 (m * 8192) (by rw [hx]) hs (by omega) (by omega)
      refine ⟨by rw [g1, hsf], ?_, ?_, ?_, ?_⟩
      · simp [f32IsNaN, f16IsNaN, g2, g3, hef, hmf, he31]
      · simp [f32IsInf, f16IsInf, g2, g3, hef, hmf, he31]
      · intro _ hx2
        rw [hef, he31] at hx2
        omega
      · intro hn hi
        exfalso
        by_cases hm0 : m = 0
        · exact hi ⟨by rw [hef, he31], by rw [hmf]; exact hm0⟩
        · exact hn ⟨by rw [hef, he31], by rw [hmf]; exact hm0⟩
    · have hnc := fp16_to_f32_normal h s e m hd hs (by omega) (by omega) hm
      obtain ⟨g1, g2, g3⟩ :=
        f32_fields (fp16_to_f32 h) s (e + 112) (m * 8192) (by rw [hnc]) hs (by omega)
          (by omega)
      refine ⟨by rw [g1, hsf], ?_, ?_, ?_, ?_⟩
      · simp only [f32IsNaN, f16IsNaN, g2, hef]
        constructor
        · intro hc
          omega
        · intro hc
          omega
      · simp only [f32IsInf, f16IsInf, g2, hef]
        constructor
        · intro hc
          omega
        · intro hc
          omega
      · intro _ _
        rw [g2, g3, hef, hmf]
        exact ⟨rfl, rfl⟩
      · intro _ _
        have hfac : ((8388608 : Int) + ((m * 8192 : Nat) : Int)) * 2 ^ ((e + 112) - 1) =
            ((1024 : Int) + (m : Int)) * 2 ^ (124 + e) := by
          have h1 : (e + 112) - 1 = e + 111 := by omega
          have h2 : 124 + e = (e + 111) + 13 := by omega
          rw [h1, h2, pow_add]
          push_cast
          ring
        simp only [val32, val16, g1, g2, g3, hsf, hef, hmf]
        rw [if_neg (show ¬ ((e + 112 : Nat) = 0) by omega), if_neg he0, hfac]

theorem c6_witness :
    f32SignF (fp16_to_f32 15360) = f16SignF 15360 ∧
    (f32ExpF (fp16_to_f32 15360) = f16ExpF 15360 + 112 ∧
     f32ManF (fp16_to_f32 15360) = f16ManF 15360 * 8192) ∧
    val32 (fp16_to_f32 15360) = val16 15360 :=
  have hc := c6_fp16_to_f32_ieee 15360 (by decide)
  ⟨hc.1, hc.2.2.2.1 (by decide) (by decide), hc.2.2.2.2 (by decide) (by decide)⟩

set_option maxRecDepth 20000 in
/-- C4 counterexample: the binary16 pattern 2 (the subnormal of value
2^-23) is not in the NaN band, yet its round trip through the forward
codec and the truncating reverse codec is the bit pattern 0, which is
neither the same bits nor a value within one ulp (the error is two ulps),
refuting the claim as stated. -/
theorem c4_counterexample : ¬ f16IsNaN 2 ∧ ¬ c4RoundTripWithinUlp 2 := by decide

/-- C4 (amended): for every 16-bit pattern outside the NaN band, the
round trip through the forward codec and the truncating reverse codec
reproduces the bits exactly when the input is a signed zero, a normal
number or an infinity; a subnormal input (exponent field 0, nonzero
mantissa) is flushed to the zero of its sign, which can be more than one
ulp away. -/
theorem c4_roundtrip (h : Nat) (hh : h < 65536) (hn : ¬ f16IsNaN h) :
    (f16ExpF h = 0 ∧ f16ManF h ≠ 0 → fp16RoundTrip h = f16SignF h * 32768) ∧
    ((f16ExpF h = 0 → f16ManF h = 0) → fp16RoundTrip h = h) := by
  obtain ⟨hs, he, hm, hd⟩ : h / 32768 < 2 ∧ h / 1024 % 32 < 32 ∧ h % 1024 < 1024 ∧
      h = (h / 32768) * 32768 + (h / 1024 % 32) * 1024 + h % 1024 :=
    ⟨by omega, by omega, by omega, by omega⟩
  set s := h / 32768 with hsdef
  set e := h / 1024 % 32 with hedef
  set m := h % 1024 with hmdef
  obtain ⟨hsf, hef, hmf⟩ := f16_fields_arith h s e m hd hs he hm
  by_cases he0 : e = 0
  · by_cases hm0 : m = 0
    · constructor
      · intro hc
        rw [hmf] at hc
        exact absurd hm0 hc.2
      · intro _
        have hz := fp16_to_f32_zero h s (by omega) hs
        unfold fp16RoundTrip
        rw [hz, f32_to_f16_char (s * 2147483648) s 0 0 (by ring) hs (by omega) (by omega)]
        rw [if_pos (by omega)]
        omega
    · constructor
      · intro _
        obtain ⟨k, hkge, hkle, hk2, hk3, hval⟩ :=
          fp16_to_f32_subnormal h s m (by omega) hs (by omega) hm
        have hMb : (m * 2 ^ k - 1024) * 8192 < 8388608 := by
          set M2 := m * 2 ^ k
          omega
        unfold fp16RoundTrip
        rw [hval, f32_to_f16_char _ s (113 - k) ((m * 2 ^ k - 1024) * 8192) rfl hs
          (by omega) hMb]
        rw [if_pos (by omega), hsf]
      · intro hc
        exact absurd (hc (by rw [hef]; exact he0)) (by rw [hmf]; exact hm0)
  · by_cases he31 : e = 31
    · have hm0 : m = 0 := by
        by_contra hc
        exact hn ⟨by rw [hef, he31], by rw [hmf]; exact hc⟩
      constructor
      · intro hc
        rw [hef] at hc
        exact absurd hc.1 he0
      · intro _
        have hx := fp16_to_f32_expmax h s m (by omega) hs hm
        unfold fp16RoundTrip
        rw [hx, f32_to_f16_char _ s 255 (m * 8192) rfl hs (by omega) (by omega)]
        rw [if_neg (by omega), if_pos (by omega)]
        omega
    · constructor
      · intro hc
        rw [hef] at hc
        exact absurd hc.1 he0
      · intro _
        have hnc := fp16_to_f32_normal h s e m hd hs (by omega) (by omega) hm
        unfold fp16RoundTrip
        rw [hnc, f32_to_f16_char _ s (e + 112) (m * 8192) rfl hs (by omega) (by omega)]
        rw [if_neg (by omega), if_neg (by omega)]
        have h1 : e + 112 - 112 = e := by omega
        have h2 : m * 8192 / 8192 = m := by omega
        rw [h1, h2]
        omega

theorem c4_witness :
    fp16RoundTrip 2 = f16SignF 2 * 32768 ∧ fp16RoundTrip 15360 = 15360 :=
  ⟨(c4_roundtrip 2 (by decide) (by decide)).1 ⟨by decide, by decide⟩,
   (c4_roundtrip 15360 (by decide) (by decide)).2 (by decide)⟩

end QwenAsr
